import Mathlib

/-!
Verification development for the Biotech-Paper-Puller repository.

Strings are modelled as lists of characters. Python floats are modelled as
exact rationals. The helpers from app/paper_lookup.py and app/main.py are
translated one by one; stdlib facilities used by the code (difflib ratio,
urllib parsing, str.lower, str.strip) are modelled from the spec, as noted
on each definition.
-/

set_option maxRecDepth 8000

namespace PaperPuller

/-- A Python string, modelled as a list of characters. -/
abbrev Str := List Char

/-- Modelled from the spec: ASCII lowercasing of one character, as done
character-wise by the Python str.lower method on ASCII input; the codes 65
and 90 are the letters A and Z, and adding 32 reaches the lowercase range. -/
def pyLower (c : Char) : Char :=
  if 65 ≤ c.toNat ∧ c.toNat ≤ 90 then Char.ofNat (c.toNat + 32) else c

/-- Whitespace as matched by a Python regex escape for whitespace
(ASCII part: space, tab, newline, carriage return, vertical tab, form feed). -/
def isPySpace (c : Char) : Bool :=
  c = ' ' || c = '\t' || c = '\n' || c = '\r' || c = '\x0b' || c = '\x0c'

/-- A lowercase ASCII letter or an ASCII digit: the characters kept by the
normalization regex character class of lowercase letters, digits, whitespace;
the codes 97 to 122 are the lowercase letters and 48 to 57 the digits. -/
def isLowerAlnum (c : Char) : Bool :=
  (97 ≤ c.toNat && c.toNat ≤ 122) || (48 ≤ c.toNat && c.toNat ≤ 57)

/-- Replace each maximal run of characters satisfying bad by the single
replacement character rep, as a Python regex substitution of a one-or-more
character class does. Written with a two-character lookahead so that the
recursion is structural: the last character of each bad run produces rep. -/
def collapseRuns (bad : Char → Bool) (rep : Char) : Str → Str
  | [] => []
  | [c] => if bad c then [rep] else [c]
  | c :: d :: rest =>
    if bad c && bad d then collapseRuns bad rep (d :: rest)
    else (if bad c then rep else c) :: collapseRuns bad rep (d :: rest)

/-- Drop the characters satisfying p from the end of the list. -/
def dropTrailing (p : Char → Bool) (l : Str) : Str :=
  (l.reverse.dropWhile p).reverse

/-- Modelled from the spec: the Python str.strip operation with the character
class p, removing matching characters from both ends. -/
def pyStrip (p : Char → Bool) (l : Str) : Str :=
  dropTrailing p (l.dropWhile p)

/-- normalize_text from app/paper_lookup.py: lowercase the input, replace each
character that is not a lowercase letter, digit or whitespace by a space,
collapse whitespace runs to one space, and trim both ends. -/
def normalize_text (value : Str) : Str :=
  pyStrip isPySpace
    (collapseRuns isPySpace ' '
      ((value.map pyLower).map (fun c => if isLowerAlnum c || isPySpace c then c else ' ')))

/-- normalize_last_name from app/paper_lookup.py: normalize_text, then remove
every space. -/
def normalize_last_name (value : Str) : Str :=
  (normalize_text value).filter (fun c => !(c = ' '))

/-- Inner loop of the longest-common-subsequence length: one row of the
standard recursion, parametrised by the solution restFn for the tail of the
first sequence so that both recursions are structural. -/
def lcsGo (a : Char) (restFn : Str → Nat) : Str → Nat
  | [] => 0
  | b :: bs => if a = b then restFn bs + 1 else max (lcsGo a restFn bs) (restFn (b :: bs))

/-- Modelled from the spec: the length of a longest common subsequence of two
character sequences, the matched-element count underlying the standard
sequence-alignment similarity used by the scorer. -/
def lcsLen : Str → Str → Nat
  | [], _ => 0
  | a :: as, l2 => lcsGo a (lcsLen as) l2

/-- Modelled from the spec: the similarity ratio of two already-normalized
strings, twice the matched-element count divided by the total length, with the
convention that two empty sequences have ratio one. -/
def simRatioQ (a b : Str) : ℚ :=
  if a.length + b.length = 0 then 1
  else (2 * (lcsLen a b : ℚ)) / ((a.length + b.length : ℕ) : ℚ)

/-- title_similarity from app/paper_lookup.py: zero if either input is empty,
else the similarity ratio of the normalized inputs. -/
def title_similarity (left right : Str) : ℚ :=
  if left = [] ∨ right = [] then 0
  else simRatioQ (normalize_text left) (normalize_text right)

/-- One author entry of a Crossref work item: the given and family fields,
with a missing or null field modelled as the empty string, as the code's
defaulted dictionary reads produce. -/
structure CrossrefAuthor where
  given : Str
  family : Str
deriving DecidableEq, Repr

/-- The fields of a Crossref work item used by the scorer and builders: the
title list and the author list, with null or missing lists modelled as empty,
as the defaulted dictionary reads produce. -/
structure CrossrefItem where
  title : List Str
  author : List CrossrefAuthor
deriving DecidableEq, Repr

/-- One entry of the Europe PMC full-text URL list: the url and documentStyle
fields, missing or null fields modelled as the empty string. -/
structure FullTextEntry where
  url : Str
  documentStyle : Str
deriving DecidableEq, Repr

/-- The fields of a Europe PMC search result used by the scorer and the
full-text extractor, missing or null fields modelled as empty. -/
structure EuropePmcResult where
  title : Str
  firstAuthor : Str
  fullTextUrl : List FullTextEntry
  pmcid : Str
deriving DecidableEq, Repr

/-- Loop of extract_europe_pmc_pdf_url from app/paper_lookup.py: return the
url of the first entry with a truthy url whose lowercased documentStyle is
pdf or whose lowercased url ends in a pdf extension. -/
def findFullTextPdf : List FullTextEntry → Option Str
  | [] => none
  | e :: rest =>
    if e.url ≠ [] ∧ ((e.documentStyle.map pyLower) = "pdf".toList ∨
        List.isSuffixOf ".pdf".toList (e.url.map pyLower)) then some e.url
    else findFullTextPdf rest

/-- extract_europe_pmc_pdf_url from app/paper_lookup.py: the loop above, then
a viewer URL synthesized from the stripped pmcid when one is present, else
none. -/
def extract_europe_pmc_pdf_url (result : EuropePmcResult) : Option Str :=
  match findFullTextPdf result.fullTextUrl with
  | some url => some url
  | none =>
    let pmcid := pyStrip isPySpace result.pmcid
    if pmcid ≠ [] then
      some ("https://europepmc.org/articles/".toList ++ pmcid ++ "?pdf=render".toList)
    else none

/-- The scorer for one Crossref item, source name with a leading underscore:
base title similarity of the first listed title, then the author adjustments
of app/paper_lookup.py lines 80 to 102. -/
def score_crossref_item (item : CrossrefItem) (requested_title requested_first_author_last_name : Str) : ℚ :=
  let candidate_title := item.title.headD []
  let score := title_similarity candidate_title requested_title
  let target_last_name := normalize_last_name requested_first_author_last_name
  if target_last_name = [] then score
  else if item.author = [] then score - 1/20
  else
    let first_author_last_name := normalize_last_name ((item.author.headD ⟨[], []⟩).family)
    if first_author_last_name ≠ [] ∧ first_author_last_name = target_last_name then score + 3/10
    else if ∃ au ∈ item.author, normalize_last_name au.family = target_last_name then score + 1/10
    else score

/-- The scorer for one Europe PMC result, source name with a leading
underscore: base title similarity, plus the first-author bonus computed from
the first space-separated token of the stripped firstAuthor field,
app/paper_lookup.py lines 122 to 135. -/
def score_europe_pmc_result (result : EuropePmcResult) (requested_title requested_first_author_last_name : Str) : ℚ :=
  let score := title_similarity result.title requested_title
  let target_last_name := normalize_last_name requested_first_author_last_name
  if target_last_name = [] then score
  else
    let first_author_raw := pyStrip isPySpace result.firstAuthor
    let first_author_last_name := first_author_raw.takeWhile (fun c => !(c = ' '))
    let first_author := normalize_last_name first_author_last_name
    if first_author ≠ [] ∧ first_author = target_last_name then score + 3/10
    else score

/-- The shared selection loop of pick_best_crossref_item and
pick_best_europe_pmc_result: keep the first record whose score strictly
exceeds the best seen so far. -/
def bestLoop (f : α → ℚ) : List α → Option α × ℚ → Option α × ℚ
  | [], acc => acc
  | x :: xs, acc => bestLoop f xs (if acc.2 < f x then (some x, f x) else acc)

/-- The shared body of both per-source selectors: run the loop from no record
and score minus one, then reset to no record and score zero when the best
score is below the forty-five hundredths threshold. -/
def selectBest (f : α → ℚ) (xs : List α) : Option α × ℚ :=
  let r := bestLoop f xs (none, -1)
  if r.2 < 9/20 then (none, 0) else r

/-- pick_best_crossref_item from app/paper_lookup.py lines 105 to 119. -/
def pick_best_crossref_item (items : List CrossrefItem) (requested_title requested_first_author_last_name : Str) : Option CrossrefItem × ℚ :=
  selectBest (fun it => score_crossref_item it requested_title requested_first_author_last_name) items

/-- pick_best_europe_pmc_result from app/paper_lookup.py lines 138 to 152. -/
def pick_best_europe_pmc_result (results : List EuropePmcResult) (requested_title requested_first_author_last_name : Str) : Option EuropePmcResult × ℚ :=
  selectBest (fun r => score_europe_pmc_result r requested_title requested_first_author_last_name) results

/-- A character allowed inside a URL scheme: an ASCII letter, an ASCII digit,
or one of plus, minus, dot. -/
def isSchemeChar (c : Char) : Bool :=
  ('a' ≤ c && c ≤ 'z') || ('A' ≤ c && c ≤ 'Z') || ('0' ≤ c && c ≤ '9') ||
  c = '+' || c = '-' || c = '.'

/-- An ASCII letter. -/
def isAsciiAlpha (c : Char) : Bool :=
  ('a' ≤ c && c ≤ 'z') || ('A' ≤ c && c ≤ 'Z')

/-- A character that terminates the network-location part of a URL. -/
def isNetlocEnd (c : Char) : Bool :=
  c = '/' || c = '?' || c = '#'

/-- Modelled from the spec: the canonical parsed form of a URL, with the
lowercased scheme, the network location, and the remainder kept verbatim. -/
structure UrlParts where
  scheme : Str
  netloc : Str
  rest : Str
deriving DecidableEq, Repr

/-- Modelled from the spec: scheme extraction of the standard URL parser. The
text before the first colon is the scheme when it is non-empty, starts with a
letter, and holds only scheme characters; it is returned lowercased. -/
def splitScheme (u : Str) : Str × Str :=
  if (u.takeWhile (fun c => !(c = ':'))).length < u.length &&
      !(u.takeWhile (fun c => !(c = ':'))).isEmpty &&
      isAsciiAlpha ((u.takeWhile (fun c => !(c = ':'))).headD ' ') &&
      (u.takeWhile (fun c => !(c = ':'))).all isSchemeChar then
    ((u.takeWhile (fun c => !(c = ':'))).map pyLower,
      u.drop ((u.takeWhile (fun c => !(c = ':'))).length + 1))
  else ([], u)

/-- Modelled from the spec: the standard URL parser restricted to the parts
the deduper reads. After the scheme, a double slash introduces the network
location, which extends to the first slash, question mark or hash; everything
after it is kept verbatim as the remainder. -/
def urlparseM (u : Str) : UrlParts :=
  if (splitScheme u).2.take 2 = "//".toList then
    ⟨(splitScheme u).1,
      ((splitScheme u).2.drop 2).takeWhile (fun c => !isNetlocEnd c),
      ((splitScheme u).2.drop 2).drop
        ((((splitScheme u).2.drop 2).takeWhile (fun c => !isNetlocEnd c)).length)⟩
  else ⟨(splitScheme u).1, [], (splitScheme u).2⟩

/-- Modelled from the spec: reassembly of a parsed URL into its canonical
string, the geturl method of the parse result: the lowercased scheme with a
colon when present, the double slash and network location when the location
is present or the remainder opens with a double slash, then the remainder. -/
def geturlM (p : UrlParts) : Str :=
  (if p.scheme ≠ [] then p.scheme ++ [':'] else []) ++
  (if p.netloc ≠ [] ∨ p.rest.take 2 = "//".toList then
    '/' :: '/' :: (p.netloc ++ p.rest)
  else p.rest)

/-- The canonical parsed form of a URL string: parse, then reassemble. -/
def canonUrl (u : Str) : Str := geturlM (urlparseM u)

/-- The keep condition of dedupe_urls: the parsed scheme is http or https and
the network location is non-empty. -/
def urlKept (p : UrlParts) : Prop :=
  (p.scheme = "http".toList ∨ p.scheme = "https".toList) ∧ p.netloc ≠ []

instance (p : UrlParts) : Decidable (urlKept p) := by
  unfold urlKept; infer_instance

/-- Loop of dedupe_urls from app/paper_lookup.py lines 155 to 166, with the
seen set modelled as the list of canonical strings already emitted. -/
def dedupeGo : List Str → List Str → List Str
  | [], _ => []
  | u :: rest, seen =>
    let p := urlparseM u
    if urlKept p then
      let cleaned := geturlM p
      if cleaned ∈ seen then dedupeGo rest seen
      else cleaned :: dedupeGo rest (cleaned :: seen)
    else dedupeGo rest seen

/-- dedupe_urls from app/paper_lookup.py: drop entries whose scheme is not
http or https or whose network location is empty, and drop duplicates of the
canonical parsed form, keeping first occurrences. -/
def dedupe_urls (urls : List Str) : List Str := dedupeGo urls []

/-- The generic keep-first-occurrence dedupe, the reference form of the
first-seen-order contract: keep the head and delete its later duplicates
before continuing. -/
def dedupeFirst : List Str → List Str
  | [] => []
  | x :: xs => x :: dedupeFirst (xs.filter (fun y => !(y = x)))
termination_by l => l.length
decreasing_by
  simp_wf
  exact Nat.lt_succ_of_le (List.length_filter_le _ _)

/-- A built per-source match record, holding the fields of the dictionaries
built by the two builder functions that the arbitration and the orchestrator
read: the score, the optional DOI, the Crossref pdf link list and the Europe
PMC pdf url. Built match dictionaries always carry a score. -/
structure MatchRec where
  source : Str
  title : Str
  doi : Option Str
  score : ℚ
  pdf_links : List Str
  pdf_url : Option Str
deriving DecidableEq, Repr

/-- The arbitration between the two per-source outcomes, source name with a
leading underscore, app/paper_lookup.py lines 274 to 281: with both present,
the Europe PMC match wins only with a strictly higher score; with one
present, that one; with neither, none. -/
def pick_primary_match : Option MatchRec → Option MatchRec → Option MatchRec
  | some crossref_match, some europe_pmc_match =>
    if crossref_match.score < europe_pmc_match.score then some europe_pmc_match
    else some crossref_match
  | some crossref_match, none => some crossref_match
  | none, some europe_pmc_match => some europe_pmc_match
  | none, none => none

/-- The Python or of two optional strings: the first when it is present and
non-empty, else the second. -/
def pyOrStr (a b : Option Str) : Option Str :=
  match a with
  | some s => if s = [] then b else some s
  | none => b

/-- Python truthiness of an optional string: present and non-empty. -/
def truthyOpt (o : Option Str) : Bool :=
  match o with
  | some s => !s.isEmpty
  | none => false

/-- The result bundle returned by discover_paper. The primary field models
the match key of the returned dictionary. -/
structure DiscoveryRes where
  primary : Option MatchRec
  candidate_urls : List Str
  warnings : List Str
  crossref_match : Option MatchRec
  europe_pmc_match : Option MatchRec
deriving DecidableEq, Repr

/-- The warning recorded when a DOI is known but no contact address is
configured. -/
def unpaywallWarning : Str :=
  "UNPAYWALL_EMAIL is not set. Add it to increase legal full-text coverage.".toList

/-- The candidate-URL collection of discover_paper, app/paper_lookup.py
lines 299 to 310: the Europe PMC pdf url when present and truthy, then the
Crossref pdf links, then the open-access resolver URL, gated on a truthy
resolved DOI and the configured contact address. -/
def collect_candidate_urls (crossref_match europe_pmc_match : Option MatchRec)
    (unpaywall_email : Bool) (unpaywallRes : Option Str) : List Str :=
  ((match europe_pmc_match with
    | some m => if truthyOpt m.pdf_url then [m.pdf_url.getD []] else []
    | none => []) ++
  (match crossref_match with
    | some m => m.pdf_links
    | none => [])) ++
  (if truthyOpt (pyOrStr
        ((pick_primary_match crossref_match europe_pmc_match).bind (·.doi))
        (crossref_match.bind (·.doi))) ∧ unpaywall_email then
    (if truthyOpt unpaywallRes then [unpaywallRes.getD []] else [])
  else [])

/-- The pure core of discover_paper, app/paper_lookup.py lines 299 to 324:
the two per-source fetch outcomes, the presence of the configured contact
address, and the open-access resolver outcome are taken as inputs; the body
arbitrates, resolves the DOI, collects and dedupes candidate URLs, and
assembles warnings. -/
def discover_paper_core (crossref_match europe_pmc_match : Option MatchRec)
    (unpaywall_email : Bool) (unpaywallRes : Option Str) : DiscoveryRes :=
  let primary_match := pick_primary_match crossref_match europe_pmc_match
  let doi := pyOrStr (primary_match.bind (·.doi)) (crossref_match.bind (·.doi))
  let warnings : List Str :=
    if truthyOpt doi ∧ ¬unpaywall_email then [unpaywallWarning] else []
  ⟨primary_match,
    dedupe_urls (collect_candidate_urls crossref_match europe_pmc_match
      unpaywall_email unpaywallRes),
    warnings, crossref_match, europe_pmc_match⟩

/-- A character kept verbatim by the filename sanitizer: an ASCII letter or
digit, dot, underscore, or minus. -/
def isFnameChar (c : Char) : Bool :=
  ('a' ≤ c && c ≤ 'z') || ('A' ≤ c && c ≤ 'Z') || ('0' ≤ c && c ≤ '9') ||
  c = '.' || c = '_' || c = '-'

/-- The filename sanitizer of app/main.py lines 46 to 52, source name with a
leading underscore: collapse runs of disallowed characters to an underscore,
strip underscores from both ends, fall back to the word paper when empty,
append a pdf extension when the lowercased name lacks one, and keep at most
the first 140 characters. -/
def sanitize_filename (raw_title : Str) : Str :=
  let cleaned := pyStrip (fun c => c = '_') (collapseRuns (fun c => !isFnameChar c) '_' raw_title)
  let cleaned2 := if cleaned = [] then "paper".toList else cleaned
  let cleaned3 :=
    if List.isSuffixOf ".pdf".toList (cleaned2.map pyLower) then cleaned2
    else cleaned2 ++ ".pdf".toList
  cleaned3.take 140

/-- The response of the lookup endpoint: an HTTP error with a status code, or
a success body. The registered field holds the URL stored in the download
cache when a token was registered. -/
inductive LookupResp where
  | httpError (status_code : Nat) : LookupResp
  | success (primary : Option MatchRec) (candidate_urls : List Str)
      (download_available : Bool) (registered : Option Str) : LookupResp
deriving DecidableEq, Repr

/-- The pure core of the lookup endpoint, app/main.py lines 95 to 121, taking
the discovery result as input: a 404 error when there is no match and no
candidate URL, else a success body that registers a download token for the
first candidate URL exactly when one exists. -/
def lookup_endpoint (result : DiscoveryRes) : LookupResp :=
  if result.primary = none ∧ result.candidate_urls = [] then .httpError 404
  else
    .success result.primary result.candidate_urls
      (!result.candidate_urls.isEmpty) result.candidate_urls.head?

section SimilarityLemmas

theorem lcsGo_le_len (a : Char) (f : Str → Nat) (hf : ∀ m, f m ≤ m.length) :
    ∀ l2 : Str, lcsGo a f l2 ≤ l2.length := by
  intro l2
  induction l2 with
  | nil => simp [lcsGo]
  | cons b bs ih =>
    by_cases h : a = b
    · simpa [lcsGo, h] using Nat.succ_le_succ (hf bs)
    · simp only [lcsGo, if_neg h, List.length_cons]
      exact max_le (Nat.le_succ_of_le ih) (hf (b :: bs))

theorem lcsLen_le_right : ∀ l1 l2 : Str, lcsLen l1 l2 ≤ l2.length := by
  intro l1
  induction l1 with
  | nil => intro l2; simp [lcsLen]
  | cons a as ih => intro l2; exact lcsGo_le_len a (lcsLen as) ih l2

theorem lcsGo_le_bound (a : Char) (f : Str → Nat) (K : Nat) (hf : ∀ m, f m ≤ K) :
    ∀ l2 : Str, lcsGo a f l2 ≤ K + 1 := by
  intro l2
  induction l2 with
  | nil => simp [lcsGo]
  | cons b bs ih =>
    by_cases h : a = b
    · simpa [lcsGo, h] using Nat.succ_le_succ (hf bs)
    · simp only [lcsGo, if_neg h]
      exact max_le ih (Nat.le_succ_of_le (hf (b :: bs)))

theorem lcsLen_le_left : ∀ l1 l2 : Str, lcsLen l1 l2 ≤ l1.length := by
  intro l1
  induction l1 with
  | nil => intro l2; simp [lcsLen]
  | cons a as ih =>
    intro l2
    simpa [List.length_cons] using lcsGo_le_bound a (lcsLen as) as.length ih l2

theorem lcsLen_self : ∀ l : Str, lcsLen l l = l.length := by
  intro l
  induction l with
  | nil => simp [lcsLen]
  | cons a as ih => simp [lcsLen, lcsGo, ih]

theorem simRatioQ_nonneg (a b : Str) : 0 ≤ simRatioQ a b := by
  unfold simRatioQ
  split
  · norm_num
  · positivity

theorem simRatioQ_le_one (a b : Str) : simRatioQ a b ≤ 1 := by
  unfold simRatioQ
  split
  · norm_num
  · rename_i h
    rw [div_le_one (by positivity)]
    have h1 : lcsLen a b ≤ a.length := lcsLen_le_left a b
    have h2 : lcsLen a b ≤ b.length := lcsLen_le_right a b
    have : 2 * lcsLen a b ≤ a.length + b.length := by omega
    push_cast
    exact_mod_cast this

theorem simRatioQ_self (l : Str) : simRatioQ l l = 1 := by
  unfold simRatioQ
  split
  · rfl
  · rename_i h
    have hl : 0 < l.length := by omega
    have hql : (0 : ℚ) < (l.length : ℚ) := by exact_mod_cast hl
    rw [lcsLen_self]
    have hc : ((l.length + l.length : ℕ) : ℚ) = 2 * (l.length : ℚ) := by push_cast; ring
    rw [hc, div_eq_one_iff_eq (by positivity)]

theorem title_similarity_nonneg (a b : Str) : 0 ≤ title_similarity a b := by
  unfold title_similarity
  split
  · norm_num
  · exact simRatioQ_nonneg _ _

theorem title_similarity_le_one (a b : Str) : title_similarity a b ≤ 1 := by
  unfold title_similarity
  split
  · norm_num
  · exact simRatioQ_le_one _ _

theorem title_similarity_self (a : Str) (h : a ≠ []) : title_similarity a a = 1 := by
  unfold title_similarity
  rw [if_neg (by simp [h])]
  exact simRatioQ_self _

theorem title_similarity_empty (a b : Str) (h : a = [] ∨ b = []) :
    title_similarity a b = 0 := by
  unfold title_similarity
  rw [if_pos h]

end SimilarityLemmas

/-- C7: title_similarity always returns a value between zero and one
inclusive; it returns one whenever both arguments are equal and non-empty,
and returns zero whenever either argument is the empty string. -/
theorem C7_title_similarity_range (left right : Str) :
    (0 ≤ title_similarity left right ∧ title_similarity left right ≤ 1) ∧
    (left = right ∧ left ≠ [] → title_similarity left right = 1) ∧
    ((left = [] ∨ right = []) → title_similarity left right = 0) := by
  refine ⟨⟨title_similarity_nonneg _ _, title_similarity_le_one _ _⟩, ?_, ?_⟩
  · rintro ⟨rfl, h⟩
    exact title_similarity_self _ h
  · exact title_similarity_empty _ _

/-- Witness for C7: concrete instances of the identical-input case and the
empty-input case. -/
theorem C7_title_similarity_range_witness :
    ("ab".toList = "ab".toList ∧ "ab".toList ≠ ([] : Str)) ∧
    title_similarity "ab".toList "ab".toList = 1 ∧
    title_similarity ([] : Str) "x".toList = 0 := by
  refine ⟨⟨rfl, by decide⟩, ?_, ?_⟩
  · exact (C7_title_similarity_range "ab".toList "ab".toList).2.1 ⟨rfl, by decide⟩
  · exact (C7_title_similarity_range [] "x".toList).2.2 (Or.inl rfl)

/-- C3: cross-source arbitration: with both outcomes present, the one with
the strictly higher score wins and ties return the Crossref match, because
the comparison is strict-greater-than on the Europe PMC score; with exactly
one present, that one; with neither, none. -/
theorem C3_pick_primary_match (c e : MatchRec) :
    (c.score < e.score → pick_primary_match (some c) (some e) = some e) ∧
    (e.score ≤ c.score → pick_primary_match (some c) (some e) = some c) ∧
    (e.score = c.score → pick_primary_match (some c) (some e) = some c) ∧
    pick_primary_match (some c) none = some c ∧
    pick_primary_match none (some e) = some e ∧
    pick_primary_match none none = none := by
  refine ⟨fun h => ?_, fun h => ?_, fun h => ?_, rfl, rfl, rfl⟩
  · simp [pick_primary_match, h]
  · simp [pick_primary_match, not_lt.mpr h]
  · simp [pick_primary_match, not_lt.mpr h.le]

/-- Witness for C3: a concrete tie returns the Crossref-side match. -/
theorem C3_pick_primary_match_witness :
    ((⟨"europe_pmc".toList, [], none, 0, [], none⟩ : MatchRec).score ≤
      (⟨"crossref".toList, [], none, 0, [], none⟩ : MatchRec).score) ∧
    pick_primary_match (some ⟨"crossref".toList, [], none, 0, [], none⟩)
      (some ⟨"europe_pmc".toList, [], none, 0, [], none⟩) =
      some ⟨"crossref".toList, [], none, 0, [], none⟩ :=
  ⟨le_refl 0,
    (C3_pick_primary_match ⟨"crossref".toList, [], none, 0, [], none⟩
      ⟨"europe_pmc".toList, [], none, 0, [], none⟩).2.1 (le_refl 0)⟩

/-- C9: the lookup endpoint responds 404 exactly when the discovery result
has no primary match and an empty candidate-URL list; otherwise it succeeds
with status 200, registering a download token for the first candidate URL
exactly when the candidate-URL list is non-empty. -/
theorem C9_lookup_endpoint (result : DiscoveryRes) :
    (lookup_endpoint result = .httpError 404 ↔
      result.primary = none ∧ result.candidate_urls = []) ∧
    ((result.primary ≠ none ∨ result.candidate_urls ≠ []) →
      lookup_endpoint result =
        .success result.primary result.candidate_urls
          (!result.candidate_urls.isEmpty) result.candidate_urls.head? ∧
      (result.candidate_urls.head?.isSome ↔ result.candidate_urls ≠ [])) := by
  constructor
  · unfold lookup_endpoint
    split
    · rename_i h
      simp [h]
    · rename_i h
      simp [h]
  · intro h
    have hne : ¬(result.primary = none ∧ result.candidate_urls = []) := by tauto
    constructor
    · unfold lookup_endpoint
      rw [if_neg hne]
    · cases result.candidate_urls <;> simp

/-- Witness for C9: a concrete discovery result with no match but one
candidate URL yields a success response with a registered token. -/
theorem C9_lookup_endpoint_witness :
    ((⟨none, [['u']], [], none, none⟩ : DiscoveryRes).primary ≠ none ∨
      (⟨none, [['u']], [], none, none⟩ : DiscoveryRes).candidate_urls ≠ []) ∧
    lookup_endpoint ⟨none, [['u']], [], none, none⟩ =
      .success none [['u']] true (some ['u']) :=
  ⟨Or.inr (by decide),
    ((C9_lookup_endpoint ⟨none, [['u']], [], none, none⟩).2 (Or.inr (by decide))).1⟩

/-- Counterexample for C6: on a record whose first style-pdf entry has an
empty URL, the extractor skips that entry (the code also requires a truthy
URL) and returns the URL of a later entry, while the claim, read literally,
selects the first entry satisfying the style-or-extension test. -/
theorem C6_extract_counterexample :
    List.find? (fun e => (e.documentStyle.map pyLower == "pdf".toList) ||
        List.isSuffixOf ".pdf".toList (e.url.map pyLower))
      (⟨[], [], [⟨[], "pdf".toList⟩, ⟨"http://x/a.pdf".toList, "html".toList⟩],
        []⟩ : EuropePmcResult).fullTextUrl = some ⟨[], "pdf".toList⟩ ∧
    extract_europe_pmc_pdf_url
      ⟨[], [], [⟨[], "pdf".toList⟩, ⟨"http://x/a.pdf".toList, "html".toList⟩], []⟩ =
      some "http://x/a.pdf".toList ∧
    ("http://x/a.pdf".toList : Str) ≠ (⟨[], "pdf".toList⟩ : FullTextEntry).url := by
  refine ⟨by decide, by decide, by decide⟩

/-- C6 amended: full-text extraction returns the URL of the first entry with
a non-empty URL whose declared style is pdf or whose URL ends in a pdf
extension, case-insensitively; with no such entry it returns a viewer URL
synthesized from the stripped pmcid when that is non-empty, else none. -/
theorem C6_extract_amended (result : EuropePmcResult) :
    extract_europe_pmc_pdf_url result =
      match result.fullTextUrl.find? (fun e => !e.url.isEmpty &&
          ((e.documentStyle.map pyLower == "pdf".toList) ||
            List.isSuffixOf ".pdf".toList (e.url.map pyLower))) with
      | some e => some e.url
      | none =>
        if pyStrip isPySpace result.pmcid ≠ [] then
          some ("https://europepmc.org/articles/".toList ++
            pyStrip isPySpace result.pmcid ++ "?pdf=render".toList)
        else none := by
  unfold extract_europe_pmc_pdf_url
  have hfind : ∀ l : List FullTextEntry, findFullTextPdf l =
      (l.find? (fun e => !e.url.isEmpty &&
        ((e.documentStyle.map pyLower == "pdf".toList) ||
          List.isSuffixOf ".pdf".toList (e.url.map pyLower)))).map (·.url) := by
    intro l
    induction l with
    | nil => simp [findFullTextPdf]
    | cons e rest ih =>
      by_cases h : e.url ≠ [] ∧ ((e.documentStyle.map pyLower) = "pdf".toList ∨
          List.isSuffixOf ".pdf".toList (e.url.map pyLower))
      · have hb : (!e.url.isEmpty && ((e.documentStyle.map pyLower == "pdf".toList) ||
            List.isSuffixOf ".pdf".toList (e.url.map pyLower))) = true := by
          simpa [List.isEmpty_iff] using h
        rw [findFullTextPdf, if_pos h]
        simp only [List.find?]
        rw [hb]
        rfl
      · have hb : (!e.url.isEmpty && ((e.documentStyle.map pyLower == "pdf".toList) ||
            List.isSuffixOf ".pdf".toList (e.url.map pyLower))) = false := by
          rw [Bool.eq_false_iff]
          simpa [List.isEmpty_iff] using h
        rw [findFullTextPdf, if_neg h]
        simp only [List.find?]
        rw [hb]
        exact ih
  rw [hfind result.fullTextUrl]
  cases result.fullTextUrl.find? (fun e => !e.url.isEmpty &&
      ((e.documentStyle.map pyLower == "pdf".toList) ||
        List.isSuffixOf ".pdf".toList (e.url.map pyLower))) <;> simp

/-- Evaluation for C2 at the failing input: on 140 letters, the sanitized
filename is non-empty and within the cap, but the forced pdf extension has
been truncated away, so the output does not end in the pdf extension; the
output is exactly the 140 letters. -/
theorem C2_sanitize_filename_long_input :
    sanitize_filename (List.replicate 140 'a') = List.replicate 140 'a' ∧
    (sanitize_filename (List.replicate 140 'a')).length ≤ 140 ∧
    sanitize_filename (List.replicate 140 'a') ≠ [] ∧
    ¬ List.isSuffixOf ".pdf".toList (sanitize_filename (List.replicate 140 'a')) := by
  refine ⟨by decide, by decide, by decide, by decide⟩

/-- C10: with a usable normalized query surname, the Europe PMC scorer adds
the bonus of three tenths exactly when the first space-separated token of the
stripped firstAuthor field normalizes to a non-empty string equal to the
normalized query surname, and otherwise returns the bare title similarity. -/
theorem C10_europe_pmc_author_bonus (result : EuropePmcResult)
    (requested_title requested_first_author_last_name : Str)
    (h : normalize_last_name requested_first_author_last_name ≠ []) :
    (normalize_last_name
        ((pyStrip isPySpace result.firstAuthor).takeWhile (fun c => !(c = ' '))) ≠ [] ∧
      normalize_last_name
        ((pyStrip isPySpace result.firstAuthor).takeWhile (fun c => !(c = ' '))) =
        normalize_last_name requested_first_author_last_name →
      score_europe_pmc_result result requested_title requested_first_author_last_name =
        title_similarity result.title requested_title + 3/10) ∧
    (¬(normalize_last_name
        ((pyStrip isPySpace result.firstAuthor).takeWhile (fun c => !(c = ' '))) ≠ [] ∧
      normalize_last_name
        ((pyStrip isPySpace result.firstAuthor).takeWhile (fun c => !(c = ' '))) =
        normalize_last_name requested_first_author_last_name) →
      score_europe_pmc_result result requested_title requested_first_author_last_name =
        title_similarity result.title requested_title) := by
  constructor <;> intro hc <;> simp [score_europe_pmc_result, h, hc]

/-- Witness for C10: a multi-word surname in the firstAuthor field is
compared only by its first word, so it earns no bonus against the same
multi-word query surname. -/
theorem C10_europe_pmc_author_bonus_witness :
    normalize_last_name "van der Berg".toList ≠ [] ∧
    score_europe_pmc_result ⟨['a'], "van der Berg J".toList, [], []⟩ ['a']
        "van der Berg".toList =
      title_similarity ['a'] ['a'] := by
  refine ⟨by decide, ?_⟩
  exact (C10_europe_pmc_author_bonus ⟨['a'], "van der Berg J".toList, [], []⟩ ['a']
    "van der Berg".toList (by decide)).2 (by decide)

/-- Counterexample for C1: on an item whose author list is present but whose
surnames all differ from the query surname, the scorer returns the bare base
score, not the base score minus one twentieth as the claim states. -/
theorem C1_crossref_scorer_counterexample :
    (⟨[['a']], [⟨[], ['x']⟩]⟩ : CrossrefItem).author ≠ [] ∧
    (∀ au ∈ (⟨[['a']], [⟨[], ['x']⟩]⟩ : CrossrefItem).author,
      normalize_last_name au.family ≠ normalize_last_name ['q']) ∧
    normalize_last_name ['q'] ≠ [] ∧
    score_crossref_item ⟨[['a']], [⟨[], ['x']⟩]⟩ ['a'] ['q'] ≠
      title_similarity (([['a']] : List Str).headD []) ['a'] - 1/20 := by
  refine ⟨by decide, by decide, by decide, ?_⟩
  have e1 : normalize_last_name ['q'] = ['q'] := by decide
  have e2 : normalize_last_name ['x'] = ['x'] := by decide
  have hscore : score_crossref_item ⟨[['a']], [⟨[], ['x']⟩]⟩ ['a'] ['q'] =
      title_similarity ['a'] ['a'] := by
    simp [score_crossref_item, e1, e2]
  rw [hscore]
  simp only [List.headD]
  rw [title_similarity_self ['a'] (by decide)]
  norm_num

/-- C1 amended: with a usable normalized query surname, the Crossref scorer
returns base plus three tenths when the first listed author's normalized
surname is non-empty and equals the query surname; else base plus one tenth
when some listed author's normalized surname equals it; else base minus one
twentieth when the author list is absent or empty; else, with authors present
but none matching, the bare base score. -/
theorem C1_crossref_scorer_amended (item : CrossrefItem)
    (requested_title requested_first_author_last_name : Str)
    (h : normalize_last_name requested_first_author_last_name ≠ []) :
    (item.author = [] →
      score_crossref_item item requested_title requested_first_author_last_name =
        title_similarity (item.title.headD []) requested_title - 1/20) ∧
    (item.author ≠ [] →
      ((normalize_last_name ((item.author.headD ⟨[], []⟩).family) ≠ [] ∧
        normalize_last_name ((item.author.headD ⟨[], []⟩).family) =
          normalize_last_name requested_first_author_last_name) →
        score_crossref_item item requested_title requested_first_author_last_name =
          title_similarity (item.title.headD []) requested_title + 3/10) ∧
      ((¬(normalize_last_name ((item.author.headD ⟨[], []⟩).family) ≠ [] ∧
        normalize_last_name ((item.author.headD ⟨[], []⟩).family) =
          normalize_last_name requested_first_author_last_name) ∧
        (∃ au ∈ item.author, normalize_last_name au.family =
          normalize_last_name requested_first_author_last_name)) →
        score_crossref_item item requested_title requested_first_author_last_name =
          title_similarity (item.title.headD []) requested_title + 1/10) ∧
      ((¬(normalize_last_name ((item.author.headD ⟨[], []⟩).family) ≠ [] ∧
        normalize_last_name ((item.author.headD ⟨[], []⟩).family) =
          normalize_last_name requested_first_author_last_name) ∧
        ¬(∃ au ∈ item.author, normalize_last_name au.family =
          normalize_last_name requested_first_author_last_name)) →
        score_crossref_item item requested_title requested_first_author_last_name =
          title_similarity (item.title.headD []) requested_title)) := by
  have heq : score_crossref_item item requested_title requested_first_author_last_name =
      if normalize_last_name requested_first_author_last_name = [] then
        title_similarity (item.title.headD []) requested_title
      else if item.author = [] then
        title_similarity (item.title.headD []) requested_title - 1/20
      else if (normalize_last_name ((item.author.headD ⟨[], []⟩).family) ≠ [] ∧
          normalize_last_name ((item.author.headD ⟨[], []⟩).family) =
            normalize_last_name requested_first_author_last_name) then
        title_similarity (item.title.headD []) requested_title + 3/10
      else if ∃ au ∈ item.author, normalize_last_name au.family =
          normalize_last_name requested_first_author_last_name then
        title_similarity (item.title.headD []) requested_title + 1/10
      else title_similarity (item.title.headD []) requested_title := rfl
  refine ⟨fun he => ?_, fun hne => ⟨fun hc => ?_, fun hc => ?_, fun hc => ?_⟩⟩
  · rw [heq, if_neg h, if_pos he]
  · rw [heq, if_neg h, if_neg hne, if_pos hc]
  · rw [heq, if_neg h, if_neg hne, if_neg hc.1, if_pos hc.2]
  · rw [heq, if_neg h, if_neg hne, if_neg hc.1, if_neg hc.2]

/-- Witness for C1 amended: an empty author list earns the one-twentieth
penalty. -/
theorem C1_crossref_scorer_amended_witness :
    normalize_last_name ['q'] ≠ [] ∧
    score_crossref_item ⟨[['a']], []⟩ ['a'] ['q'] =
      title_similarity (([['a']] : List Str).headD []) ['a'] - 1/20 := by
  refine ⟨by decide, ?_⟩
  exact (C1_crossref_scorer_amended ⟨[['a']], []⟩ ['a'] ['q'] (by decide)).1 rfl

section SelectorLemmas

variable {α : Type}

theorem bestLoop_snd (f : α → ℚ) :
    ∀ (xs : List α) (b : Option α) (s : ℚ),
      (bestLoop f xs (b, s)).2 = xs.foldl (fun a x => max a (f x)) s := by
  intro xs
  induction xs with
  | nil => intro b s; rfl
  | cons x xs ih =>
    intro b s
    simp only [bestLoop, List.foldl]
    by_cases h : s < f x
    · rw [if_pos h, ih, max_eq_right h.le]
    · rw [if_neg h, ih, max_eq_left (not_lt.mp h)]

theorem bestLoop_of_all_le (f : α → ℚ) :
    ∀ (xs : List α) (b : Option α) (s : ℚ), (∀ x ∈ xs, f x ≤ s) →
      bestLoop f xs (b, s) = (b, s) := by
  intro xs
  induction xs with
  | nil => intro b s _; rfl
  | cons x xs ih =>
    intro b s h
    have hx : ¬ s < f x := not_lt.mpr (h x (by simp))
    simp only [bestLoop, if_neg hx]
    exact ih b s (fun z hz => h z (by simp [hz]))

theorem bestLoop_exists (f : α → ℚ) :
    ∀ (xs : List α) (b : Option α) (s : ℚ), (∃ x ∈ xs, s < f x) →
      ∃ l₁ y l₂, xs = l₁ ++ y :: l₂ ∧ bestLoop f xs (b, s) = (some y, f y) ∧
        s < f y ∧ (∀ z ∈ l₁, f z < f y) ∧ (∀ z ∈ l₂, f z ≤ f y) := by
  intro xs
  induction xs with
  | nil => intro b s h; simp at h
  | cons x xs ih =>
    intro b s hex
    by_cases hx : s < f x
    · simp only [bestLoop, if_pos hx]
      by_cases hall : ∀ z ∈ xs, f z ≤ f x
      · refine ⟨[], x, xs, rfl, ?_, hx, by simp, hall⟩
        exact bestLoop_of_all_le f xs (some x) (f x) hall
      · push_neg at hall
        obtain ⟨l₁, y, l₂, hxs, hres, hlt, hl₁, hl₂⟩ := ih (some x) (f x) hall
        refine ⟨x :: l₁, y, l₂, by rw [hxs, List.cons_append], hres, lt_trans hx hlt, ?_, hl₂⟩
        intro z hz
        rcases List.mem_cons.mp hz with rfl | hz'
        · exact hlt
        · exact hl₁ z hz'
    · have hx' : f x ≤ s := not_lt.mp hx
      simp only [bestLoop, if_neg hx]
      obtain ⟨w, hw, hws⟩ := hex
      have hw' : w ∈ xs := by
        rcases List.mem_cons.mp hw with rfl | h'
        · exact absurd hws (not_lt.mpr hx')
        · exact h'
      obtain ⟨l₁, y, l₂, hxs, hres, hlt, hl₁, hl₂⟩ := ih b s ⟨w, hw', hws⟩
      refine ⟨x :: l₁, y, l₂, by rw [hxs, List.cons_append], hres, hlt, ?_, hl₂⟩
      intro z hz
      rcases List.mem_cons.mp hz with rfl | hz'
      · exact lt_of_le_of_lt hx' hlt
      · exact hl₁ z hz'

theorem selectBest_spec (f : α → ℚ) (hlb : ∀ x, -1 < f x) (xs : List α) :
    (xs = [] → selectBest f xs = (none, 0)) ∧
    (∀ x xs', xs = x :: xs' →
      (xs'.foldl (fun a y => max a (f y)) (f x) < 9/20 →
        selectBest f xs = (none, 0)) ∧
      (¬ xs'.foldl (fun a y => max a (f y)) (f x) < 9/20 →
        (selectBest f xs).2 = xs'.foldl (fun a y => max a (f y)) (f x) ∧
        ∃ l₁ y l₂, xs = l₁ ++ y :: l₂ ∧ (selectBest f xs).1 = some y ∧
          f y = xs'.foldl (fun a y => max a (f y)) (f x) ∧
          ∀ z ∈ l₁, f z < xs'.foldl (fun a y => max a (f y)) (f x))) := by
  constructor
  · rintro rfl
    show (if ((none, -1) : Option α × ℚ).2 < 9/20 then ((none, 0) : Option α × ℚ)
      else (none, -1)) = (none, 0)
    norm_num
  · rintro x xs' rfl
    set m := xs'.foldl (fun a y => max a (f y)) (f x) with hm
    have hsnd : (bestLoop f (x :: xs') (none, -1)).2 = m := by
      rw [bestLoop_snd]
      simp only [List.foldl]
      rw [max_eq_right (hlb x).le]
    have hsel : selectBest f (x :: xs') =
        if (bestLoop f (x :: xs') (none, -1)).2 < 9/20 then (none, 0)
        else bestLoop f (x :: xs') (none, -1) := rfl
    constructor
    · intro hth
      rw [hsel, hsnd, if_pos hth]
    · intro hth
      rw [hsel, hsnd, if_neg hth]
      obtain ⟨l₁, y, l₂, hxs, hres, _, hl₁, _⟩ :=
        bestLoop_exists f (x :: xs') none (-1) ⟨x, by simp, hlb x⟩
      have hfy : f y = m := by
        have := hsnd
        rw [hres] at this
        exact this
      refine ⟨hsnd ▸ ?_, l₁, y, l₂, hxs, ?_, hfy, ?_⟩
      · rw [hres]
      · rw [hres]
      · intro z hz
        exact hfy ▸ hl₁ z hz

end SelectorLemmas

theorem score_crossref_item_lb (item : CrossrefItem) (t q : Str) :
    -1 < score_crossref_item item t q := by
  have h0 := title_similarity_nonneg (item.title.headD []) t
  have heq : score_crossref_item item t q =
      if normalize_last_name q = [] then title_similarity (item.title.headD []) t
      else if item.author = [] then title_similarity (item.title.headD []) t - 1/20
      else if (normalize_last_name ((item.author.headD ⟨[], []⟩).family) ≠ [] ∧
          normalize_last_name ((item.author.headD ⟨[], []⟩).family) =
            normalize_last_name q) then
        title_similarity (item.title.headD []) t + 3/10
      else if ∃ au ∈ item.author, normalize_last_name au.family =
          normalize_last_name q then
        title_similarity (item.title.headD []) t + 1/10
      else title_similarity (item.title.headD []) t := rfl
  rw [heq]
  split_ifs <;> linarith

theorem score_europe_pmc_result_lb (result : EuropePmcResult) (t q : Str) :
    -1 < score_europe_pmc_result result t q := by
  have h0 := title_similarity_nonneg result.title t
  have heq : score_europe_pmc_result result t q =
      if normalize_last_name q = [] then title_similarity result.title t
      else if (normalize_last_name
          ((pyStrip isPySpace result.firstAuthor).takeWhile (fun c => !(c = ' '))) ≠ [] ∧
        normalize_last_name
          ((pyStrip isPySpace result.firstAuthor).takeWhile (fun c => !(c = ' '))) =
          normalize_last_name q) then title_similarity result.title t + 3/10
      else title_similarity result.title t := rfl
  rw [heq]
  split_ifs <;> linarith

/-- C4: both per-source selectors return none with score zero on the empty
candidate list and whenever the best combined score over the list is below
forty-five hundredths; otherwise they return the first record attaining the
maximum combined score, together with that maximum. -/
theorem C4_selector_threshold (requested_title requested_first_author_last_name : Str) :
    (∀ items : List CrossrefItem,
      (items = [] →
        pick_best_crossref_item items requested_title requested_first_author_last_name =
          (none, 0)) ∧
      (∀ x xs', items = x :: xs' →
        (xs'.foldl (fun a y => max a
            (score_crossref_item y requested_title requested_first_author_last_name))
            (score_crossref_item x requested_title requested_first_author_last_name) < 9/20 →
          pick_best_crossref_item items requested_title requested_first_author_last_name =
            (none, 0)) ∧
        (¬ xs'.foldl (fun a y => max a
            (score_crossref_item y requested_title requested_first_author_last_name))
            (score_crossref_item x requested_title requested_first_author_last_name) < 9/20 →
          (pick_best_crossref_item items requested_title
              requested_first_author_last_name).2 =
            xs'.foldl (fun a y => max a
              (score_crossref_item y requested_title requested_first_author_last_name))
              (score_crossref_item x requested_title requested_first_author_last_name) ∧
          ∃ l₁ y l₂, items = l₁ ++ y :: l₂ ∧
            (pick_best_crossref_item items requested_title
                requested_first_author_last_name).1 = some y ∧
            score_crossref_item y requested_title requested_first_author_last_name =
              xs'.foldl (fun a y => max a
                (score_crossref_item y requested_title requested_first_author_last_name))
                (score_crossref_item x requested_title requested_first_author_last_name) ∧
            ∀ z ∈ l₁, score_crossref_item z requested_title
                requested_first_author_last_name <
              xs'.foldl (fun a y => max a
                (score_crossref_item y requested_title requested_first_author_last_name))
                (score_crossref_item x requested_title
                  requested_first_author_last_name)))) ∧
    (∀ results : List EuropePmcResult,
      (results = [] →
        pick_best_europe_pmc_result results requested_title
          requested_first_author_last_name = (none, 0)) ∧
      (∀ x xs', results = x :: xs' →
        (xs'.foldl (fun a y => max a
            (score_europe_pmc_result y requested_title requested_first_author_last_name))
            (score_europe_pmc_result x requested_title
              requested_first_author_last_name) < 9/20 →
          pick_best_europe_pmc_result results requested_title
            requested_first_author_last_name = (none, 0)) ∧
        (¬ xs'.foldl (fun a y => max a
            (score_europe_pmc_result y requested_title requested_first_author_last_name))
            (score_europe_pmc_result x requested_title
              requested_first_author_last_name) < 9/20 →
          (pick_best_europe_pmc_result results requested_title
              requested_first_author_last_name).2 =
            xs'.foldl (fun a y => max a
              (score_europe_pmc_result y requested_title requested_first_author_last_name))
              (score_europe_pmc_result x requested_title
                requested_first_author_last_name) ∧
          ∃ l₁ y l₂, results = l₁ ++ y :: l₂ ∧
            (pick_best_europe_pmc_result results requested_title
                requested_first_author_last_name).1 = some y ∧
            score_europe_pmc_result y requested_title requested_first_author_last_name =
              xs'.foldl (fun a y => max a
                (score_europe_pmc_result y requested_title requested_first_author_last_name))
                (score_europe_pmc_result x requested_title
                  requested_first_author_last_name) ∧
            ∀ z ∈ l₁, score_europe_pmc_result z requested_title
                requested_first_author_last_name <
              xs'.foldl (fun a y => max a
                (score_europe_pmc_result y requested_title requested_first_author_last_name))
                (score_europe_pmc_result x requested_title
                  requested_first_author_last_name)))) := by
  constructor
  · intro items
    exact selectBest_spec
      (fun it => score_crossref_item it requested_title requested_first_author_last_name)
      (fun it => score_crossref_item_lb it requested_title requested_first_author_last_name)
      items
  · intro results
    exact selectBest_spec
      (fun r => score_europe_pmc_result r requested_title requested_first_author_last_name)
      (fun r => score_europe_pmc_result_lb r requested_title requested_first_author_last_name)
      results

/-- Witness for C4: singleton candidate lists whose only score is below the
threshold yield none with score zero, for both selectors. -/
theorem C4_selector_threshold_witness :
    ((List.foldl (fun a y => max a (score_crossref_item y ['a'] ['q'])) (score_crossref_item ⟨[], []⟩ ['a'] ['q']) [] < 9/20) ∧
      pick_best_crossref_item [⟨[], []⟩] ['a'] ['q'] = (none, 0)) ∧
    ((List.foldl (fun a y => max a (score_europe_pmc_result y ['a'] ['q'])) (score_europe_pmc_result ⟨[], [], [], []⟩ ['a'] ['q']) [] < 9/20) ∧
      pick_best_europe_pmc_result [⟨[], [], [], []⟩] ['a'] ['q'] = (none, 0)) := by
  have hc : score_crossref_item ⟨[], []⟩ ['a'] ['q'] = 0 - 1/20 := by
    have heq : score_crossref_item ⟨[], []⟩ ['a'] ['q'] =
        title_similarity (([] : List Str).headD []) ['a'] - 1/20 := by
      rw [show score_crossref_item ⟨[], []⟩ ['a'] ['q'] =
        if normalize_last_name ['q'] = [] then title_similarity (([] : List Str).headD []) ['a']
        else if ([] : List CrossrefAuthor) = [] then
          title_similarity (([] : List Str).headD []) ['a'] - 1/20
        else title_similarity (([] : List Str).headD []) ['a'] from rfl]
      rw [if_neg (by decide), if_pos rfl]
    rw [heq, show (([] : List Str).headD []) = ([] : Str) from rfl,
      title_similarity_empty _ _ (Or.inl rfl)]
  have he : score_europe_pmc_result ⟨[], [], [], []⟩ ['a'] ['q'] = 0 := by
    have heq2 := score_europe_pmc_result_lb ⟨[], [], [], []⟩ ['a'] ['q']
    rw [show score_europe_pmc_result ⟨[], [], [], []⟩ ['a'] ['q'] =
      if normalize_last_name ['q'] = [] then title_similarity [] ['a']
      else if (normalize_last_name
          ((pyStrip isPySpace ([] : Str)).takeWhile (fun c => !(c = ' '))) ≠ [] ∧
        normalize_last_name
          ((pyStrip isPySpace ([] : Str)).takeWhile (fun c => !(c = ' '))) =
          normalize_last_name ['q']) then title_similarity [] ['a'] + 3/10
      else title_similarity [] ['a'] from rfl]
    rw [if_neg (by decide), if_neg (by decide), title_similarity_empty _ _ (Or.inl rfl)]
  have h1 : List.foldl (fun a y => max a (score_crossref_item y ['a'] ['q']))
      (score_crossref_item ⟨[], []⟩ ['a'] ['q']) [] < 9/20 := by
    simp only [List.foldl]
    rw [hc]; norm_num
  have h2 : List.foldl (fun a y => max a (score_europe_pmc_result y ['a'] ['q']))
      (score_europe_pmc_result ⟨[], [], [], []⟩ ['a'] ['q']) [] < 9/20 := by
    simp only [List.foldl]
    rw [he]; norm_num
  refine ⟨⟨h1, ?_⟩, ⟨h2, ?_⟩⟩
  · exact (((C4_selector_threshold ['a'] ['q']).1 [⟨[], []⟩]).2 ⟨[], []⟩ [] rfl).1 h1
  · exact (((C4_selector_threshold ['a'] ['q']).2 [⟨[], [], [], []⟩]).2
      ⟨[], [], [], []⟩ [] rfl).1 h2

section NormalizeLemmas

theorem map_fix {f : Char → Char} : ∀ l : Str, (∀ c ∈ l, f c = c) → l.map f = l := by
  intro l h
  induction l with
  | nil => rfl
  | cons a t ih =>
    simp only [List.map_cons]
    rw [h a (by simp), ih (fun c hc => h c (by simp [hc]))]

theorem pyLower_fix (c : Char) (h : isLowerAlnum c = true ∨ c = ' ') : pyLower c = c := by
  rcases h with h | rfl
  · simp only [isLowerAlnum, Bool.or_eq_true, Bool.and_eq_true, decide_eq_true_eq] at h
    unfold pyLower
    rw [if_neg (by omega)]
  · decide

theorem isPySpace_cases (c : Char) (h : isPySpace c = true) :
    c = ' ' ∨ c = '\t' ∨ c = '\n' ∨ c = '\r' ∨ c = '\x0b' ∨ c = '\x0c' := by
  simp only [isPySpace, Bool.or_eq_true, decide_eq_true_eq] at h
  tauto

theorem isLowerAlnum_space_false (c : Char) (h : isPySpace c = true) :
    isLowerAlnum c = false := by
  rcases isPySpace_cases c h with rfl | rfl | rfl | rfl | rfl | rfl <;> decide

theorem collapseRuns_mem (bad : Char → Bool) (rep : Char) :
    ∀ l : Str, ∀ c ∈ collapseRuns bad rep l, c = rep ∨ (c ∈ l ∧ bad c = false)
  | [] => by simp [collapseRuns]
  | [d] => by
    intro c hc
    by_cases hd : bad d = true
    · simp only [collapseRuns, if_pos hd] at hc
      exact Or.inl (List.mem_singleton.mp hc)
    · simp only [collapseRuns, if_neg hd] at hc
      have : c = d := List.mem_singleton.mp hc
      subst this
      exact Or.inr ⟨by simp, Bool.eq_false_iff.mpr hd⟩
  | d :: e :: rest => by
    intro c hc
    simp only [collapseRuns] at hc
    by_cases hde : (bad d && bad e) = true
    · rw [if_pos hde] at hc
      rcases collapseRuns_mem bad rep (e :: rest) c hc with h | ⟨hm, hb⟩
      · exact Or.inl h
      · exact Or.inr ⟨List.mem_cons_of_mem d hm, hb⟩
    · rw [if_neg hde] at hc
      rcases List.mem_cons.mp hc with rfl | hc'
      · by_cases hd : bad d = true
        · rw [if_pos hd]
          exact Or.inl rfl
        · rw [if_neg hd]
          exact Or.inr ⟨by simp, Bool.eq_false_iff.mpr hd⟩
      · rcases collapseRuns_mem bad rep (e :: rest) c hc' with h | ⟨hm, hb⟩
        · exact Or.inl h
        · exact Or.inr ⟨List.mem_cons_of_mem d hm, hb⟩

theorem collapseRuns_head (bad : Char → Bool) (rep d : Char) (hd : bad d = false) :
    ∀ rest : Str, (collapseRuns bad rep (d :: rest)).head? = some d := by
  intro rest
  cases rest with
  | nil => simp [collapseRuns, hd]
  | cons e r =>
    have h : (bad d && bad e) = false := by rw [hd]; rfl
    simp [collapseRuns, h, hd]

theorem collapseRuns_chain (bad : Char → Bool) (rep : Char) :
    ∀ l : Str, (collapseRuns bad rep l).Chain'
      (fun a b => ¬(bad a = true ∧ bad b = true))
  | [] => by simp [collapseRuns]
  | [d] => by by_cases hd : bad d = true <;> simp [collapseRuns, hd]
  | d :: e :: rest => by
    by_cases hde : (bad d && bad e) = true
    · simp only [collapseRuns, if_pos hde]
      exact collapseRuns_chain bad rep (e :: rest)
    · simp only [collapseRuns, if_neg hde]
      rw [List.chain'_cons']
      refine ⟨?_, collapseRuns_chain bad rep (e :: rest)⟩
      intro y hy
      by_cases hd : bad d = true
      · have he : bad e = false := by
          cases hbe : bad e
          · rfl
          · exact absurd (by rw [hd, hbe]; rfl) hde
        rw [collapseRuns_head bad rep e he rest] at hy
        have hye : e = y := by simpa using hy
        subst hye
        rw [if_pos hd]
        intro hcon
        rw [he] at hcon
        exact absurd hcon.2 (by simp)
      · rw [if_neg hd]
        intro hcon
        exact hd hcon.1

theorem collapseRuns_fix :
    ∀ w : Str, (∀ c ∈ w, isPySpace c = true → c = ' ') →
      w.Chain' (fun a b => ¬(isPySpace a = true ∧ isPySpace b = true)) →
      collapseRuns isPySpace ' ' w = w
  | [], _, _ => rfl
  | [d], hsp, _ => by
    by_cases hd : isPySpace d = true
    · have hds : d = ' ' := hsp d (by simp) hd
      subst hds
      simp [collapseRuns]
    · simp [collapseRuns, hd]
  | d :: e :: rest, hsp, hch => by
    have h1 : ¬(isPySpace d = true ∧ isPySpace e = true) := (List.chain'_cons.mp hch).1
    have hde : ¬((isPySpace d && isPySpace e) = true) := by
      simpa [Bool.and_eq_true] using h1
    have htail := (List.chain'_cons.mp hch).2
    have hrec := collapseRuns_fix (e :: rest)
      (fun c hc h => hsp c (by simp [List.mem_cons.mp hc]) h) htail
    simp only [collapseRuns, if_neg hde]
    rw [hrec]
    by_cases hd : isPySpace d = true
    · rw [if_pos hd, hsp d (by simp) hd]
    · rw [if_neg hd]

theorem dropWhile_idem (p : Char → Bool) (l : Str) :
    (l.dropWhile p).dropWhile p = l.dropWhile p := by
  induction l with
  | nil => rfl
  | cons a t ih =>
    by_cases h : p a = true
    · rw [List.dropWhile_cons_of_pos h]
      exact ih
    · rw [List.dropWhile_cons_of_neg h, List.dropWhile_cons_of_neg h]

theorem dropTrailing_idem (p : Char → Bool) (l : Str) :
    dropTrailing p (dropTrailing p l) = dropTrailing p l := by
  unfold dropTrailing
  rw [List.reverse_reverse, dropWhile_idem]

theorem dropWhile_eq_self_of_head (p : Char → Bool) (w : Str)
    (h : ∀ a, w.head? = some a → p a = false) : w.dropWhile p = w := by
  cases w with
  | nil => rfl
  | cons a t =>
    rw [List.dropWhile_cons_of_neg (by simp [h a rfl])]

theorem head?_dropTrailing (p : Char → Bool) (a : Char) (t : Str) :
    dropTrailing p (a :: t) = [] ∨ (dropTrailing p (a :: t)).head? = some a := by
  unfold dropTrailing
  by_cases h : (a :: t).reverse.dropWhile p = []
  · left
    rw [h]
    rfl
  · right
    rw [List.head?_reverse]
    have hsplit := List.takeWhile_append_dropWhile p (a :: t).reverse
    have hgl : ((a :: t).reverse).getLast? =
        ((a :: t).reverse.dropWhile p).getLast? := by
      conv_lhs => rw [← hsplit]
      exact List.getLast?_append_of_ne_nil _ h
    rw [← hgl, List.getLast?_reverse]
    rfl

theorem pyStrip_idem (p : Char → Bool) (l : Str) :
    pyStrip p (pyStrip p l) = pyStrip p l := by
  have key : ∀ m : Str, m.dropWhile p = m →
      pyStrip p (dropTrailing p m) = dropTrailing p m := by
    intro m hm
    unfold pyStrip
    have hdw : (dropTrailing p m).dropWhile p = dropTrailing p m := by
      cases m with
      | nil => rfl
      | cons a t =>
        have hpa : p a = false := by
          cases hpa' : p a
          · rfl
          · exfalso
            rw [List.dropWhile_cons_of_pos hpa'] at hm
            have hle : (t.dropWhile p).length ≤ t.length :=
              (List.dropWhile_sublist p).length_le
            have h2 := congrArg List.length hm
            simp only [List.length_cons] at h2
            omega
        rcases head?_dropTrailing p a t with hnil | hhead
        · rw [hnil]
          rfl
        · refine dropWhile_eq_self_of_head p _ (fun b hb => ?_)
          rw [hhead] at hb
          have hba : b = a := by simpa using hb.symm
          subst hba
          exact hpa
    rw [hdw, dropTrailing_idem]
  exact key (l.dropWhile p) (dropWhile_idem p l)

theorem chain'_pyStrip {R : Char → Char → Prop} (p : Char → Bool) (l : Str)
    (h : l.Chain' R) : (pyStrip p l).Chain' R := by
  unfold pyStrip dropTrailing
  have h1 : (l.dropWhile p).Chain' R := by
    rw [← List.takeWhile_append_dropWhile p l] at h
    exact (List.chain'_append.mp h).2.1
  have h2 : ((l.dropWhile p).reverse).Chain' (fun a b => R b a) :=
    List.chain'_reverse.mpr h1
  have h3 : ((l.dropWhile p).reverse.dropWhile p).Chain' (fun a b => R b a) := by
    rw [← List.takeWhile_append_dropWhile p (l.dropWhile p).reverse] at h2
    exact (List.chain'_append.mp h2).2.1
  exact List.chain'_reverse.mpr h3

theorem mem_pyStrip (p : Char → Bool) (l : Str) (c : Char) (h : c ∈ pyStrip p l) :
    c ∈ l := by
  unfold pyStrip dropTrailing at h
  rw [List.mem_reverse] at h
  have h2 := (List.dropWhile_sublist p).mem h
  rw [List.mem_reverse] at h2
  exact (List.dropWhile_sublist p).mem h2

theorem normalize_text_chars (v : Str) :
    ∀ c ∈ normalize_text v, isLowerAlnum c = true ∨ c = ' ' := by
  intro c hc
  unfold normalize_text at hc
  have hc1 := mem_pyStrip _ _ _ hc
  rcases collapseRuns_mem _ _ _ c hc1 with h | ⟨hm, hb⟩
  · exact Or.inr h
  · rcases List.mem_map.mp hm with ⟨d, _, hd⟩
    by_cases hk : (isLowerAlnum d || isPySpace d) = true
    · rw [if_pos hk] at hd
      subst hd
      have hk2 : isLowerAlnum d = true ∨ isPySpace d = true := by simpa using hk
      rcases hk2 with h' | h'
      · exact Or.inl h'
      · rw [hb] at h'
        exact absurd h' (by simp)
    · rw [if_neg hk] at hd
      exact Or.inr hd.symm

theorem normalize_text_space (v : Str) (c : Char) (hc : c ∈ normalize_text v)
    (hs : isPySpace c = true) : c = ' ' := by
  rcases normalize_text_chars v c hc with h | h
  · have := isLowerAlnum_space_false c hs
    rw [h] at this
    exact absurd this (by simp)
  · exact h

theorem normalize_text_chain (v : Str) :
    (normalize_text v).Chain' (fun a b => ¬(isPySpace a = true ∧ isPySpace b = true)) := by
  unfold normalize_text
  exact chain'_pyStrip _ _ (collapseRuns_chain _ _ _)

end NormalizeLemmas

/-- C8: normalize_text is idempotent: applying it to its own output returns
the output unchanged. -/
theorem C8_normalize_text_idempotent (x : Str) :
    normalize_text (normalize_text x) = normalize_text x := by
  have hchars := normalize_text_chars x
  have h1 : (normalize_text x).map pyLower = normalize_text x :=
    map_fix _ (fun c hc => pyLower_fix c (hchars c hc))
  have h2 : (normalize_text x).map
      (fun c => if isLowerAlnum c || isPySpace c then c else ' ') = normalize_text x := by
    refine map_fix _ (fun c hc => ?_)
    rcases hchars c hc with h | rfl
    · rw [if_pos (by simp [h])]
    · rw [if_pos (by decide)]
  have h3 : collapseRuns isPySpace ' ' (normalize_text x) = normalize_text x :=
    collapseRuns_fix _ (fun c hc hs => normalize_text_space x c hc hs)
      (normalize_text_chain x)
  have h4 : pyStrip isPySpace (normalize_text x) = normalize_text x :=
    pyStrip_idem isPySpace _
  show pyStrip isPySpace (collapseRuns isPySpace ' '
    (((normalize_text x).map pyLower).map
      (fun c => if isLowerAlnum c || isPySpace c then c else ' '))) = normalize_text x
  rw [h1, h2, h3, h4]

section UrlLemmas

theorem takeWhile_append_all (p : Char → Bool) :
    ∀ (h t : Str), (∀ x ∈ h, p x = true) → (∀ c t', t = c :: t' → p c = false) →
      (h ++ t).takeWhile p = h := by
  intro h
  induction h with
  | nil =>
    intro t _ ht
    cases t with
    | nil => rfl
    | cons c t' =>
      simp only [List.nil_append]
      rw [List.takeWhile_cons_of_neg (by simp [ht c t' rfl])]
  | cons a h' ih =>
    intro t hall ht
    simp only [List.cons_append]
    rw [List.takeWhile_cons_of_pos (hall a (by simp))]
    rw [ih t (fun x hx => hall x (by simp [hx])) ht]

theorem drop_cons_append (h t : Str) (c : Char) :
    (h ++ c :: t).drop (h.length + 1) = t := by
  have : h ++ c :: t = (h ++ [c]) ++ t := by simp
  rw [this]
  have hlen : (h ++ [c]).length = h.length + 1 := by simp
  rw [← hlen]
  exact List.drop_left _ _

theorem drop_length_takeWhile (p : Char → Bool) :
    ∀ l : Str, l.drop (l.takeWhile p).length = l.dropWhile p := by
  intro l
  induction l with
  | nil => rfl
  | cons a t ih =>
    by_cases h : p a = true
    · rw [List.takeWhile_cons_of_pos h, List.dropWhile_cons_of_pos h,
        List.length_cons, List.drop_succ_cons]
      exact ih
    · rw [List.takeWhile_cons_of_neg (by simp [h]), List.dropWhile_cons_of_neg (by simp [h])]
      rfl

theorem dropWhile_head_false (p : Char → Bool) :
    ∀ (l : Str) (c : Char) (t : Str), l.dropWhile p = c :: t → p c = false := by
  intro l
  induction l with
  | nil => intro c t h; cases h
  | cons a l' ih =>
    intro c t h
    by_cases ha : p a = true
    · rw [List.dropWhile_cons_of_pos ha] at h
      exact ih c t h
    · rw [List.dropWhile_cons_of_neg (by simp [ha])] at h
      cases h
      cases hpa : p a
      · rfl
      · exact absurd hpa ha

theorem urlparseM_netloc_chars (u : Str) :
    ∀ c ∈ (urlparseM u).netloc, isNetlocEnd c = false := by
  intro c hc
  unfold urlparseM at hc
  by_cases h2 : (splitScheme u).2.take 2 = "//".toList
  · rw [if_pos h2] at hc
    simp only at hc
    have := List.mem_takeWhile_imp hc
    simpa using this
  · rw [if_neg h2] at hc
    simp at hc

theorem urlparseM_rest_head (u : Str) (hn : (urlparseM u).netloc ≠ []) :
    (urlparseM u).rest = [] ∨
      ∃ c t, (urlparseM u).rest = c :: t ∧ isNetlocEnd c = true := by
  unfold urlparseM at hn ⊢
  by_cases h2 : (splitScheme u).2.take 2 = "//".toList
  · rw [if_pos h2] at hn ⊢
    simp only at hn ⊢
    rw [drop_length_takeWhile]
    cases hd : ((splitScheme u).2.drop 2).dropWhile (fun c => !isNetlocEnd c) with
    | nil => exact Or.inl rfl
    | cons c t =>
      refine Or.inr ⟨c, t, rfl, ?_⟩
      have := dropWhile_head_false _ _ c t hd
      simpa using this
  · rw [if_neg h2] at hn
    simp at hn

theorem geturlM_of_kept (p : UrlParts) (hk : urlKept p) :
    geturlM p = p.scheme ++ ':' :: '/' :: '/' :: (p.netloc ++ p.rest) := by
  have hs : p.scheme ≠ [] := by
    rcases hk.1 with h | h <;> rw [h] <;> decide
  unfold geturlM
  rw [if_pos hs, if_pos (Or.inl hk.2)]
  simp

theorem splitScheme_concrete (s tail : Str)
    (h1 : ∀ x ∈ s, (!(x = ':')) = true)
    (h2 : s ≠ []) (h3 : isAsciiAlpha (s.headD ' ') = true)
    (h4 : s.all isSchemeChar = true) :
    splitScheme (s ++ ':' :: tail) = (s.map pyLower, tail) := by
  have htw : (s ++ ':' :: tail).takeWhile (fun c => !(c = ':')) = s :=
    takeWhile_append_all _ s (':' :: tail) h1 (fun c t' h => by cases h; decide)
  have hlen : s.length < (s ++ ':' :: tail).length := by
    simp [List.length_append]
  unfold splitScheme
  rw [htw]
  rw [if_pos ?hcond]
  case hcond =>
    simp only [Bool.and_eq_true, decide_eq_true_eq]
    refine ⟨⟨⟨hlen, ?_⟩, h3⟩, h4⟩
    simpa [List.isEmpty_iff] using h2
  rw [drop_cons_append]

theorem urlparseM_concrete (s netloc rest : Str)
    (h1 : ∀ x ∈ s, (!(x = ':')) = true)
    (h2 : s ≠ []) (h3 : isAsciiAlpha (s.headD ' ') = true)
    (h4 : s.all isSchemeChar = true)
    (hn : ∀ c ∈ netloc, isNetlocEnd c = false)
    (hr : rest = [] ∨ ∃ c t, rest = c :: t ∧ isNetlocEnd c = true) :
    urlparseM (s ++ ':' :: '/' :: '/' :: (netloc ++ rest)) =
      ⟨s.map pyLower, netloc, rest⟩ := by
  have hsp := splitScheme_concrete s ('/' :: '/' :: (netloc ++ rest)) h1 h2 h3 h4
  have htw : (netloc ++ rest).takeWhile (fun c => !isNetlocEnd c) = netloc := by
    refine takeWhile_append_all _ netloc rest (fun x hx => by simp [hn x hx]) ?_
    intro c t' h
    rcases hr with hnil | ⟨c', t'', heq, hbad⟩
    · rw [hnil] at h; cases h
    · rw [heq] at h
      cases h
      simp [hbad]
  unfold urlparseM
  rw [hsp]
  simp only [List.take, List.drop]
  rw [if_pos (show (['/', '/'] : Str) = "//".toList by rfl), htw]
  have hdrop : (netloc ++ rest).drop netloc.length = rest := List.drop_left _ _
  rw [hdrop]

theorem canonUrl_reparse (u : Str) (hk : urlKept (urlparseM u)) :
    urlparseM (canonUrl u) = urlparseM u := by
  have hg := geturlM_of_kept (urlparseM u) hk
  have hschars : ∀ x ∈ (urlparseM u).scheme, (!(x = ':')) = true := by
    rcases hk.1 with h | h <;> rw [h] <;> decide
  have hs2 : (urlparseM u).scheme ≠ [] := by
    rcases hk.1 with h | h <;> rw [h] <;> decide
  have hs3 : isAsciiAlpha ((urlparseM u).scheme.headD ' ') = true := by
    rcases hk.1 with h | h <;> rw [h] <;> decide
  have hs4 : (urlparseM u).scheme.all isSchemeChar = true := by
    rcases hk.1 with h | h <;> rw [h] <;> decide
  have hlow : (urlparseM u).scheme.map pyLower = (urlparseM u).scheme := by
    rcases hk.1 with h | h <;> rw [h] <;> decide
  unfold canonUrl
  rw [hg]
  rw [urlparseM_concrete _ _ _ hschars hs2 hs3 hs4
    (urlparseM_netloc_chars u) (urlparseM_rest_head u hk.2)]
  rw [hlow]

theorem canonUrl_kept (u : Str) (hk : urlKept (urlparseM u)) :
    urlKept (urlparseM (canonUrl u)) := by
  rw [canonUrl_reparse u hk]
  exact hk

theorem canonUrl_fix (u : Str) (hk : urlKept (urlparseM u)) :
    canonUrl (canonUrl u) = canonUrl u := by
  show geturlM (urlparseM (canonUrl u)) = canonUrl u
  rw [canonUrl_reparse u hk]
  rfl

end UrlLemmas

section DedupeLemmas

theorem dedupeGo_mem : ∀ (urls seen : List Str) (x : Str), x ∈ dedupeGo urls seen →
    (∃ u ∈ urls, urlKept (urlparseM u) ∧ x = canonUrl u) ∧ x ∉ seen := by
  intro urls
  induction urls with
  | nil => intro seen x hx; simp [dedupeGo] at hx
  | cons u rest ih =>
    intro seen x hx
    simp only [dedupeGo] at hx
    by_cases hkept : urlKept (urlparseM u)
    · rw [if_pos hkept] at hx
      by_cases hseen : geturlM (urlparseM u) ∈ seen
      · rw [if_pos hseen] at hx
        obtain ⟨⟨v, hv, hkv, hxv⟩, hnot⟩ := ih seen x hx
        exact ⟨⟨v, by simp [hv], hkv, hxv⟩, hnot⟩
      · rw [if_neg hseen] at hx
        rcases List.mem_cons.mp hx with rfl | hx'
        · exact ⟨⟨u, by simp, hkept, rfl⟩, hseen⟩
        · obtain ⟨⟨v, hv, hkv, hxv⟩, hnot⟩ := ih _ x hx'
          refine ⟨⟨v, by simp [hv], hkv, hxv⟩, fun hx2 => hnot (by simp [hx2])⟩
    · rw [if_neg hkept] at hx
      obtain ⟨⟨v, hv, hkv, hxv⟩, hnot⟩ := ih seen x hx
      exact ⟨⟨v, by simp [hv], hkv, hxv⟩, hnot⟩

theorem dedupeGo_nodup : ∀ (urls seen : List Str), (dedupeGo urls seen).Nodup := by
  intro urls
  induction urls with
  | nil => intro seen; simp [dedupeGo]
  | cons u rest ih =>
    intro seen
    simp only [dedupeGo]
    by_cases hkept : urlKept (urlparseM u)
    · rw [if_pos hkept]
      by_cases hseen : geturlM (urlparseM u) ∈ seen
      · rw [if_pos hseen]; exact ih seen
      · rw [if_neg hseen]
        refine List.nodup_cons.mpr ⟨?_, ih _⟩
        intro hmem
        exact (dedupeGo_mem rest _ _ hmem).2 (by simp)
    · rw [if_neg hkept]; exact ih seen

theorem dedupeGo_sublist : ∀ (urls seen : List Str),
    List.Sublist (dedupeGo urls seen) (urls.map canonUrl) := by
  intro urls
  induction urls with
  | nil => intro seen; simp [dedupeGo]
  | cons u rest ih =>
    intro seen
    simp only [dedupeGo, List.map_cons]
    by_cases hkept : urlKept (urlparseM u)
    · rw [if_pos hkept]
      by_cases hseen : geturlM (urlparseM u) ∈ seen
      · rw [if_pos hseen]; exact (ih seen).cons _
      · rw [if_neg hseen]; exact (ih _).cons₂ _
    · rw [if_neg hkept]; exact (ih seen).cons _

theorem dedupeGo_complete : ∀ (urls seen : List Str) (u : Str), u ∈ urls →
    urlKept (urlparseM u) → canonUrl u ∈ seen ∨ canonUrl u ∈ dedupeGo urls seen := by
  intro urls
  induction urls with
  | nil => intro seen u hu; simp at hu
  | cons v rest ih =>
    intro seen u hu hk
    simp only [dedupeGo]
    by_cases hkept : urlKept (urlparseM v)
    · rw [if_pos hkept]
      by_cases hseen : geturlM (urlparseM v) ∈ seen
      · rw [if_pos hseen]
        rcases List.mem_cons.mp hu with rfl | hu'
        · exact Or.inl hseen
        · exact ih seen u hu' hk
      · rw [if_neg hseen]
        rcases List.mem_cons.mp hu with rfl | hu'
        · exact Or.inr (List.mem_cons_self _ _)
        · rcases ih (geturlM (urlparseM v) :: seen) u hu' hk with hin | hin
          · rcases List.mem_cons.mp hin with heq | hin2
            · exact Or.inr (by rw [heq]; simp)
            · exact Or.inl hin2
          · exact Or.inr (List.mem_cons_of_mem _ hin)
    · rw [if_neg hkept]
      rcases List.mem_cons.mp hu with rfl | hu'
      · exact absurd hk hkept
      · exact ih seen u hu' hk

theorem dedupeGo_eq_dedupeFirst : ∀ (urls seen : List Str),
    dedupeGo urls seen = dedupeFirst
      (((urls.filter (fun u => decide (urlKept (urlparseM u)))).map canonUrl).filter
        (fun c => !(c ∈ seen))) := by
  intro urls
  induction urls with
  | nil => intro seen; simp [dedupeGo, dedupeFirst]
  | cons u rest ih =>
    intro seen
    simp only [dedupeGo]
    by_cases hkept : urlKept (urlparseM u)
    · have hfc : (u :: rest).filter (fun v => decide (urlKept (urlparseM v))) =
          u :: rest.filter (fun v => decide (urlKept (urlparseM v))) := by
        rw [List.filter_cons]
        simp [hkept]
      rw [if_pos hkept, hfc, List.map_cons]
      by_cases hseen : geturlM (urlparseM u) ∈ seen
      · have hgc : (canonUrl u ::
            (rest.filter (fun v => decide (urlKept (urlparseM v)))).map canonUrl).filter
              (fun c => !(c ∈ seen)) =
            ((rest.filter (fun v => decide (urlKept (urlparseM v)))).map canonUrl).filter
              (fun c => !(c ∈ seen)) := by
          rw [List.filter_cons]
          simp [show canonUrl u ∈ seen from hseen]
        rw [if_pos hseen, hgc]
        exact ih seen
      · have hgc : (canonUrl u ::
            (rest.filter (fun v => decide (urlKept (urlparseM v)))).map canonUrl).filter
              (fun c => !(c ∈ seen)) =
            canonUrl u ::
            ((rest.filter (fun v => decide (urlKept (urlparseM v)))).map canonUrl).filter
              (fun c => !(c ∈ seen)) := by
          rw [List.filter_cons]
          simp [show canonUrl u ∉ seen from hseen]
        rw [if_neg hseen, hgc, dedupeFirst]
        congr 1
        rw [ih (geturlM (urlparseM u) :: seen), List.filter_filter]
        refine congrArg dedupeFirst (List.filter_congr ?_)
        intro c _
        rcases hcu : decide (c = canonUrl u) with _ | _ <;>
          rcases hcs : decide (c ∈ seen) with _ | _ <;>
          simp_all [List.mem_cons, show geturlM (urlparseM u) = canonUrl u from rfl]
    · have hfc : (u :: rest).filter (fun v => decide (urlKept (urlparseM v))) =
          rest.filter (fun v => decide (urlKept (urlparseM v))) := by
        rw [List.filter_cons]
        simp [hkept]
      rw [if_neg hkept, hfc]
      exact ih seen

theorem dedupe_urls_eq_dedupeFirst (urls : List Str) :
    dedupe_urls urls = dedupeFirst
      ((urls.filter (fun u => decide (urlKept (urlparseM u)))).map canonUrl) := by
  have h := dedupeGo_eq_dedupeFirst urls []
  simpa using h

end DedupeLemmas

/-- C5: the deduper output is exactly the keep-first-occurrence dedupe of the
canonical forms of the kept inputs (scheme http or https, non-empty network
location), which pins content and first-seen order; consequently every output
URL parses to an http or https scheme with a non-empty network location, no
two outputs share a canonical parsed form, the output is an order-preserving
selection from the canonicalized input, and the canonical form of every kept
input appears. The candidate-URL list of every discovery result is the
deduper applied to the collected source URLs, so it satisfies the same
characterization. -/
theorem C5_candidate_urls_invariants :
    (∀ urls : List Str,
      dedupe_urls urls = dedupeFirst
        ((urls.filter (fun u => decide (urlKept (urlparseM u)))).map canonUrl) ∧
      (∀ x ∈ dedupe_urls urls,
        ((urlparseM x).scheme = "http".toList ∨ (urlparseM x).scheme = "https".toList) ∧
        (urlparseM x).netloc ≠ []) ∧
      (dedupe_urls urls).Pairwise (fun a b => canonUrl a ≠ canonUrl b) ∧
      List.Sublist (dedupe_urls urls) (urls.map canonUrl) ∧
      (∀ u ∈ urls, urlKept (urlparseM u) → canonUrl u ∈ dedupe_urls urls)) ∧
    (∀ (crossref_match europe_pmc_match : Option MatchRec) (unpaywall_email : Bool)
        (unpaywallRes : Option Str),
      (discover_paper_core crossref_match europe_pmc_match unpaywall_email
          unpaywallRes).candidate_urls =
        dedupe_urls (collect_candidate_urls crossref_match europe_pmc_match
          unpaywall_email unpaywallRes) ∧
      (discover_paper_core crossref_match europe_pmc_match unpaywall_email
          unpaywallRes).candidate_urls =
        dedupeFirst (((collect_candidate_urls crossref_match europe_pmc_match
            unpaywall_email unpaywallRes).filter
          (fun u => decide (urlKept (urlparseM u)))).map canonUrl) ∧
      (∀ x ∈ (discover_paper_core crossref_match europe_pmc_match unpaywall_email
          unpaywallRes).candidate_urls,
        ((urlparseM x).scheme = "http".toList ∨ (urlparseM x).scheme = "https".toList) ∧
        (urlparseM x).netloc ≠ []) ∧
      ((discover_paper_core crossref_match europe_pmc_match unpaywall_email
          unpaywallRes).candidate_urls).Pairwise
        (fun a b => canonUrl a ≠ canonUrl b)) := by
  have part1 : ∀ urls : List Str,
      dedupe_urls urls = dedupeFirst
        ((urls.filter (fun u => decide (urlKept (urlparseM u)))).map canonUrl) ∧
      (∀ x ∈ dedupe_urls urls,
        ((urlparseM x).scheme = "http".toList ∨ (urlparseM x).scheme = "https".toList) ∧
        (urlparseM x).netloc ≠ []) ∧
      (dedupe_urls urls).Pairwise (fun a b => canonUrl a ≠ canonUrl b) ∧
      List.Sublist (dedupe_urls urls) (urls.map canonUrl) ∧
      (∀ u ∈ urls, urlKept (urlparseM u) → canonUrl u ∈ dedupe_urls urls) := by
    intro urls
    refine ⟨dedupe_urls_eq_dedupeFirst urls, ?_, ?_, dedupeGo_sublist urls [],
      fun u hu hk => ?_⟩
    · intro x hx
      obtain ⟨⟨v, _, hkv, rfl⟩, _⟩ := dedupeGo_mem urls [] x hx
      exact canonUrl_kept v hkv
    · refine (dedupeGo_nodup urls []).imp_of_mem ?_
      intro a b ha hb hne
      obtain ⟨⟨va, _, hka, rfl⟩, _⟩ := dedupeGo_mem urls [] a ha
      obtain ⟨⟨vb, _, hkb, rfl⟩, _⟩ := dedupeGo_mem urls [] b hb
      rw [canonUrl_fix va hka, canonUrl_fix vb hkb]
      exact hne
    · rcases dedupeGo_complete urls [] u hu hk with h | h
      · simp at h
      · exact h
  refine ⟨part1, ?_⟩
  intro crossref_match europe_pmc_match unpaywall_email unpaywallRes
  have h0 : (discover_paper_core crossref_match europe_pmc_match unpaywall_email
      unpaywallRes).candidate_urls =
      dedupe_urls (collect_candidate_urls crossref_match europe_pmc_match
        unpaywall_email unpaywallRes) := rfl
  refine ⟨h0, ?_, ?_, ?_⟩
  · rw [h0]
    exact (part1 _).1
  · rw [h0]
    exact (part1 _).2.1
  · rw [h0]
    exact (part1 _).2.2.1

/-- Witness for C5: on an input with a repeated valid URL around a second
valid URL, the output is the first-occurrence dedupe, concretely the two
URLs in first-seen order; and a kept input is retained in canonical form. -/
theorem C5_candidate_urls_invariants_witness :
    dedupe_urls ["http://a".toList, "http://b".toList, "http://a".toList] =
      dedupeFirst ((["http://a".toList, "http://b".toList, "http://a".toList].filter
        (fun u => decide (urlKept (urlparseM u)))).map canonUrl) ∧
    dedupe_urls ["http://a".toList, "http://b".toList, "http://a".toList] =
      ["http://a".toList, "http://b".toList] ∧
    ("http://a".toList ∈ (["http://a".toList, "ftp://b".toList] : List Str)) ∧
    urlKept (urlparseM "http://a".toList) ∧
    canonUrl "http://a".toList ∈ dedupe_urls ["http://a".toList, "ftp://b".toList] := by
  refine ⟨(C5_candidate_urls_invariants.1
    ["http://a".toList, "http://b".toList, "http://a".toList]).1,
    by decide, by decide, by decide, ?_⟩
  exact (C5_candidate_urls_invariants.1 ["http://a".toList, "ftp://b".toList]).2.2.2.2
    "http://a".toList (by decide) (by decide)

end PaperPuller
